import Mathlib

/-!
Shallow embedding of the core of the futured library (futured/__init__.py):
the uniform future contract, ordered vs as-completed result streaming
(futured.results / asynced.results), the completion-tracking tasks set
(futured.tasks with pop and the draining context manager), keyed completion
(futured.items), the bounded process supervisor (forked), and the subprocess
wrapper (command).

A future handle is modelled by an identity tag, the abstract instant at which
its operation completes, and the value it produces.  asyncio.wait with
return_when=FIRST_COMPLETED is modelled as a function of the instant the wait
starts: it returns every handle completed at the moment the first one finishes
(immediately, if some have already completed), and with a bounded timeout it
returns an empty done set when no handle completes inside the window.
-/

/-- A future handle: an identity tag, the abstract instant at which the
underlying operation completes, and the value it eventually yields. -/
structure Fut (α : Type) where
  id : Nat
  ctime : Nat
  value : α
deriving DecidableEq, Repr

/-- Timeout failure surfaced by a bounded wait that produced no completion
(asyncio.TimeoutError in asynced.as_completed). -/
inductive TimeoutErr where
  | timeout
deriving DecidableEq, Repr

/-- Earliest completion instant among a batch of futures (0 for an empty batch). -/
def minCtime : List (Fut α) → Nat
  | [] => 0
  | [f] => f.ctime
  | f :: g :: fs => min f.ctime (minCtime (g :: fs))

theorem minCtime_le (fs : List (Fut α)) : ∀ f ∈ fs, minCtime fs ≤ f.ctime := by
  match fs with
  | [] => intro f hf; cases hf
  | [a] =>
    intro f hf
    rw [List.mem_singleton] at hf
    subst hf
    exact Nat.le_refl _
  | a :: b :: l =>
    intro f hf
    rw [List.mem_cons] at hf
    rcases hf with hf | hf
    · subst hf; exact Nat.min_le_left _ _
    · exact Nat.le_trans (Nat.min_le_right _ _) (minCtime_le (b :: l) f hf)

theorem exists_minCtime (fs : List (Fut α)) (h : fs ≠ []) :
    ∃ f ∈ fs, f.ctime = minCtime fs := by
  match fs with
  | [] => exact absurd rfl h
  | [a] => exact ⟨a, List.mem_singleton_self a, rfl⟩
  | a :: b :: l =>
    rcases exists_minCtime (b :: l) (by simp) with ⟨f, hf, hfeq⟩
    rcases Nat.le_total a.ctime (minCtime (b :: l)) with hle | hle
    · exact ⟨a, List.mem_cons_self _ _, (Nat.min_eq_left hle).symm⟩
    · exact ⟨f, List.mem_cons_of_mem a hf, by
        rw [hfeq]
        show minCtime (b :: l) = min a.ctime (minCtime (b :: l))
        exact (Nat.min_eq_right hle).symm⟩

/-- Handles of a batch complete by instant d: the done set of a wait that
returns at instant d. -/
def waitDone (d : Nat) (fs : List (Fut α)) : List (Fut α) :=
  fs.filter (fun f => decide (f.ctime ≤ d))

/-- Handles of a batch still pending at instant d. -/
def waitPending (d : Nat) (fs : List (Fut α)) : List (Fut α) :=
  fs.filter (fun f => ! decide (f.ctime ≤ d))

theorem waitDone_append_perm (d : Nat) (fs : List (Fut α)) :
    List.Perm (waitDone d fs ++ waitPending d fs) fs :=
  List.filter_append_perm _ fs

theorem waitPending_lt (d : Nat) (fs : List (Fut α)) (h : waitDone d fs ≠ []) :
    (waitPending d fs).length < fs.length := by
  have hp := (waitDone_append_perm d fs).length_eq
  rw [List.length_append] at hp
  have : 0 < (waitDone d fs).length := List.length_pos.2 h
  omega

theorem mem_waitDone (d : Nat) (fs : List (Fut α)) (f : Fut α) :
    f ∈ waitDone d fs ↔ f ∈ fs ∧ f.ctime ≤ d := by
  simp [waitDone, List.mem_filter]

theorem mem_waitPending (d : Nat) (fs : List (Fut α)) (f : Fut α) :
    f ∈ waitPending d fs ↔ f ∈ fs ∧ d < f.ctime := by
  rw [waitPending, List.mem_filter, Bool.not_eq_true', decide_eq_false_iff_not, Nat.not_le]

theorem waitDone_ne_nil (t : Nat) (fs : List (Fut α)) (h : fs ≠ []) :
    waitDone (max t (minCtime fs)) fs ≠ [] := by
  rcases exists_minCtime fs h with ⟨f, hf, hfeq⟩
  intro hnil
  have : f ∈ waitDone (max t (minCtime fs)) fs :=
    (mem_waitDone _ _ _).2 ⟨hf, by rw [hfeq]; exact Nat.le_max_right _ _⟩
  rw [hnil] at this
  cases this

/-- Model of asyncio.wait(fs, return_when=FIRST_COMPLETED, timeout) started at
instant t over a non-empty batch fs: returns (done, pending, t') where t' is
the instant the wait returns.  With no timeout the wait returns as soon as the
first operation has completed; with timeout T, if no operation completes by
t + T the wait returns an empty done set at t + T. -/
def wait (t : Nat) (timeout : Option Nat) (fs : List (Fut α)) :
    List (Fut α) × List (Fut α) × Nat :=
  match timeout with
  | some T =>
    if t + T < minCtime fs then ([], fs, t + T)
    else (waitDone (max t (minCtime fs)) fs, waitPending (max t (minCtime fs)) fs,
          max t (minCtime fs))
  | none =>
    (waitDone (max t (minCtime fs)) fs, waitPending (max t (minCtime fs)) fs,
     max t (minCtime fs))

theorem wait_eq_cases (t : Nat) (timeout : Option Nat) (fs : List (Fut α)) :
    (∃ T, timeout = some T ∧ t + T < minCtime fs ∧ wait t timeout fs = ([], fs, t + T)) ∨
    wait t timeout fs = (waitDone (max t (minCtime fs)) fs,
      waitPending (max t (minCtime fs)) fs, max t (minCtime fs)) := by
  cases timeout with
  | none => right; rfl
  | some T =>
    by_cases h : t + T < minCtime fs
    · left; exact ⟨T, rfl, h, by simp [wait, h]⟩
    · right; simp [wait, h]

/-- Model of asynced.as_completed: while futures remain, performs one bounded
wait (each cycle gets the full configured timeout afresh), raises Timeout when
a cycle over a non-empty set produces no completion, and otherwise yields every
handle completed during that wait before waiting on the rest.  Returns the
handles in the order they are yielded. -/
def asCompleted (timeout : Option Nat) (t : Nat) (fs : List (Fut α)) :
    Except TimeoutErr (List (Fut α)) :=
  match fs with
  | [] => .ok []
  | f0 :: fs0 =>
    if h : (wait t timeout (f0 :: fs0)).1.isEmpty then .error .timeout
    else
      match asCompleted timeout (wait t timeout (f0 :: fs0)).2.2
          (wait t timeout (f0 :: fs0)).2.1 with
      | .error e => .error e
      | .ok rest => .ok ((wait t timeout (f0 :: fs0)).1 ++ rest)
termination_by fs.length
decreasing_by
  rcases wait_eq_cases t timeout (f0 :: fs0) with ⟨T, _, _, hcase⟩ | hcase <;>
    rw [hcase] at h ⊢
  · simp at h
  · exact waitPending_lt _ _ (by
      intro hnil
      rw [hnil] at h
      simp at h)

theorem asCompleted_nil (timeout : Option Nat) (t : Nat) :
    asCompleted timeout t ([] : List (Fut α)) = .ok [] := by
  rw [asCompleted]

theorem asCompleted_cons (timeout : Option Nat) (t : Nat) (f0 : Fut α)
    (fs0 done pending : List (Fut α)) (t' : Nat)
    (hw : wait t timeout (f0 :: fs0) = (done, pending, t')) :
    asCompleted timeout t (f0 :: fs0) =
      if done.isEmpty then .error .timeout
      else
        match asCompleted timeout t' pending with
        | .error e => .error e
        | .ok rest => .ok (done ++ rest) := by
  rw [asCompleted, hw]
  rfl

theorem asCompleted_ok_bounded (timeout : Option Nat) :
    ∀ (n t : Nat) (fs : List (Fut α)), fs.length ≤ n →
      (∀ f ∈ fs, t ≤ f.ctime) →
      ∀ gs, asCompleted timeout t fs = .ok gs →
        List.Perm gs fs ∧ List.Pairwise (fun a b => a.ctime ≤ b.ctime) gs := by
  intro n
  induction n with
  | zero =>
    intro t fs hlen hinv gs h
    have hfs : fs = [] := List.length_eq_zero.1 (Nat.le_zero.1 hlen)
    subst hfs
    rw [asCompleted_nil] at h
    injection h with h
    subst h
    exact ⟨List.Perm.nil, List.Pairwise.nil⟩
  | succ n ih =>
    intro t fs hlen hinv gs h
    cases fs with
    | nil =>
      rw [asCompleted_nil] at h
      injection h with h
      subst h
      exact ⟨List.Perm.nil, List.Pairwise.nil⟩
    | cons f0 fs0 =>
      have hne : (f0 :: fs0 : List (Fut α)) ≠ [] := List.cons_ne_nil _ _
      have hm : t ≤ minCtime (f0 :: fs0) := by
        rcases exists_minCtime _ hne with ⟨f, hf, hfeq⟩
        rw [← hfeq]
        exact hinv f hf
      have hmax : max t (minCtime (f0 :: fs0)) = minCtime (f0 :: fs0) :=
        Nat.max_eq_right hm
      rcases wait_eq_cases t timeout (f0 :: fs0) with ⟨T, hT, hlt, hcase⟩ | hcase
      · rw [asCompleted_cons timeout t f0 fs0 [] (f0 :: fs0) (t + T) hcase] at h
        simp at h
      · rw [hmax] at hcase
        rw [asCompleted_cons timeout t f0 fs0 _ _ _ hcase] at h
        have hdne : waitDone (minCtime (f0 :: fs0)) (f0 :: fs0) ≠ [] := by
          have h0 := waitDone_ne_nil t (f0 :: fs0) hne
          rw [hmax] at h0
          exact h0
        rw [List.isEmpty_eq_false.2 hdne] at h
        simp only [Bool.false_eq_true, if_false] at h
        cases hrec : asCompleted timeout (minCtime (f0 :: fs0))
            (waitPending (minCtime (f0 :: fs0)) (f0 :: fs0)) with
        | error e =>
          rw [hrec] at h
          cases h
        | ok rest =>
          rw [hrec] at h
          injection h with h
          subst h
          have hlen' : (waitPending (minCtime (f0 :: fs0)) (f0 :: fs0)).length ≤ n :=
            Nat.lt_succ_iff.1 (Nat.lt_of_lt_of_le (waitPending_lt _ _ hdne) hlen)
          have hinv' : ∀ f ∈ waitPending (minCtime (f0 :: fs0)) (f0 :: fs0),
              minCtime (f0 :: fs0) ≤ f.ctime := fun f hf =>
            Nat.le_of_lt ((mem_waitPending _ _ _).1 hf).2
          obtain ⟨hperm, hsort⟩ := ih (minCtime (f0 :: fs0)) _ hlen' hinv' rest hrec
          refine ⟨List.Perm.trans (List.Perm.append_left _ hperm)
            (waitDone_append_perm _ _), ?_⟩
          rw [List.pairwise_append]
          refine ⟨?_, hsort, ?_⟩
          · apply List.pairwise_of_forall_mem_list
            intro a ha b hb
            have ha' := (mem_waitDone _ _ _).1 ha
            have hb' := (mem_waitDone _ _ _).1 hb
            exact Nat.le_trans ha'.2 (minCtime_le _ b hb'.1)
          · intro a ha b hb
            have ha' := (mem_waitDone _ _ _).1 ha
            have hb' := (mem_waitPending _ _ _).1 (hperm.mem_iff.1 hb)
            exact Nat.le_trans ha'.2 (Nat.le_of_lt hb'.2)

theorem asCompleted_perm_sorted (timeout : Option Nat) (t : Nat) (fs : List (Fut α))
    (hinv : ∀ f ∈ fs, t ≤ f.ctime) (gs : List (Fut α))
    (h : asCompleted timeout t fs = .ok gs) :
    List.Perm gs fs ∧ List.Pairwise (fun a b => a.ctime ≤ b.ctime) gs :=
  asCompleted_ok_bounded timeout fs.length t fs (Nat.le_refl _) hinv gs h

theorem asCompleted_none_bounded :
    ∀ (n t : Nat) (fs : List (Fut α)), fs.length ≤ n →
      ∃ gs, asCompleted none t fs = .ok gs := by
  intro n
  induction n with
  | zero =>
    intro t fs hlen
    have hfs : fs = [] := List.length_eq_zero.1 (Nat.le_zero.1 hlen)
    subst hfs
    exact ⟨[], asCompleted_nil none t⟩
  | succ n ih =>
    intro t fs hlen
    cases fs with
    | nil => exact ⟨[], asCompleted_nil none t⟩
    | cons f0 fs0 =>
      have hcase : wait t none (f0 :: fs0) =
          (waitDone (max t (minCtime (f0 :: fs0))) (f0 :: fs0),
           waitPending (max t (minCtime (f0 :: fs0))) (f0 :: fs0),
           max t (minCtime (f0 :: fs0))) := rfl
      have hdne := waitDone_ne_nil t (f0 :: fs0) (List.cons_ne_nil _ _)
      have hlen' : (waitPending (max t (minCtime (f0 :: fs0))) (f0 :: fs0)).length ≤ n :=
        Nat.lt_succ_iff.1 (Nat.lt_of_lt_of_le (waitPending_lt _ _ hdne) hlen)
      rcases ih (max t (minCtime (f0 :: fs0))) _ hlen' with ⟨rest, hrest⟩
      refine ⟨waitDone (max t (minCtime (f0 :: fs0))) (f0 :: fs0) ++ rest, ?_⟩
      rw [asCompleted_cons none t f0 fs0 _ _ _ hcase, List.isEmpty_eq_false.2 hdne, hrest]
      rfl

/-- Never-failing form of as-completed when no timeout is configured. -/
theorem asCompleted_none_ok (t : Nat) (fs : List (Fut α)) :
    ∃ gs, asCompleted none t fs = .ok gs :=
  asCompleted_none_bounded fs.length t fs (Nat.le_refl _)

theorem asCompleted_timeout_raises (T t : Nat) (fs : List (Fut α)) (hne : fs ≠ [])
    (h : t + T < minCtime fs) : asCompleted (some T) t fs = .error .timeout := by
  cases fs with
  | nil => exact absurd rfl hne
  | cons f0 fs0 =>
    have hcase : wait t (some T) (f0 :: fs0) = ([], f0 :: fs0, t + T) := by
      simp [wait, h]
    rw [asCompleted_cons (some T) t f0 fs0 [] (f0 :: fs0) (t + T) hcase]
    rfl

theorem wait_done_mem (t : Nat) (timeout : Option Nat) (fs : List (Fut α)) :
    ∀ f ∈ (wait t timeout fs).1, f ∈ fs := by
  rcases wait_eq_cases t timeout fs with ⟨T, _, _, hcase⟩ | hcase <;> rw [hcase]
  · intro f hf
    cases hf
  · intro f hf
    exact ((mem_waitDone _ _ _).1 hf).1

theorem length_erase_lt [DecidableEq β] (a : β) (l : List β) (h : a ∈ l) :
    (l.erase a).length < l.length := by
  rw [List.length_erase_of_mem h]
  have : l.length ≠ 0 := by
    intro h0
    rw [List.length_eq_zero] at h0
    subst h0
    cases h
  omega

/-- Model of asynced.results (and, with the same branch structure, of
futured.results over executor futures): when neither as_completed is requested
nor any extra wait option (kwargs such as timeout) is supplied, each future is
driven to completion in turn, yielding values in submission order; otherwise
the futures are consumed through as_completed, yielding values in completion
order. -/
def results (asC : Bool) (timeout : Option Nat) (fs : List (Fut α)) :
    Except TimeoutErr (List α) :=
  if asC || timeout.isSome then (asCompleted timeout 0 fs).map (List.map Fut.value)
  else .ok (fs.map Fut.value)

/-- Error raised by futured.tasks.pop: the KeyError raised when the
as-completed generator yields nothing because the set is empty, or the timeout
failure propagating out of a bounded wait that produced no completion. -/
inductive PopErr where
  | keyError (msg : String)
  | timeoutErr
deriving DecidableEq, Repr

/-- Model of futured.tasks: a set of future handles which tracks completion,
with the timeout configured at construction. -/
structure tasks (α : Type) where
  timeout : Option Nat
  elems : List (Fut α)
deriving Repr

/-- Model of futured.tasks.pop at instant t: iterate the as-completed generator
once.  On an empty set the generator yields nothing and KeyError is raised
without waiting; otherwise the first bounded wait either raises the timeout
failure or yields a completed batch, whose first handle is removed from the set
and returned, together with the instant the wait returned. -/
def tasks.pop [DecidableEq α] (s : tasks α) (t : Nat) :
    Except PopErr (Fut α × tasks α × Nat) :=
  match s.elems with
  | [] => .error (.keyError "pop from an empty set")
  | f0 :: fs0 =>
    match (wait t s.timeout (f0 :: fs0)).1 with
    | [] => .error .timeoutErr
    | task :: _ =>
      .ok (task, ⟨s.timeout, (f0 :: fs0).erase task⟩, (wait t s.timeout (f0 :: fs0)).2.2)

theorem tasks.pop_ok [DecidableEq α] (s : tasks α) (t : Nat) (task : Fut α)
    (s' : tasks α) (t' : Nat) (h : s.pop t = .ok (task, s', t')) :
    task ∈ s.elems ∧ s'.elems = s.elems.erase task ∧ s'.timeout = s.timeout := by
  rcases s with ⟨tmo, elems⟩
  cases elems with
  | nil => cases h
  | cons f0 fs0 =>
    simp only [tasks.pop] at h
    cases hw : (wait t tmo (f0 :: fs0)).1 with
    | nil =>
      rw [hw] at h
      cases h
    | cons task0 dtail =>
      rw [hw] at h
      injection h with h
      rw [Prod.mk.injEq] at h
      obtain ⟨h1, h2⟩ := h
      rw [Prod.mk.injEq] at h2
      obtain ⟨h2, h3⟩ := h2
      subst h1
      refine ⟨wait_done_mem t tmo (f0 :: fs0) task0 (by rw [hw]; exact List.mem_cons_self _ _),
        ?_, ?_⟩
      · rw [← h2]
      · rw [← h2]

/-- Consume the completion stream by repeated pop until the KeyError signalling
an empty set, collecting the popped handles in order: the round-trip
consumption loop of the tasks set. -/
def tasks.popAll [DecidableEq α] (s : tasks α) (t : Nat) :
    Except PopErr (List (Fut α)) :=
  match h : s.pop t with
  | .error (.keyError _) => .ok []
  | .error .timeoutErr => .error .timeoutErr
  | .ok (task, s', t') =>
    match s'.popAll t' with
    | .error e => .error e
    | .ok rest => .ok (task :: rest)
termination_by s.elems.length
decreasing_by
  have hm := tasks.pop_ok s t task s' t' h
  rw [hm.2.1]
  exact length_erase_lt _ _ hm.1

theorem tasks.popAll_eq_keyError [DecidableEq α] (s : tasks α) (t : Nat) (m : String)
    (h : s.pop t = .error (.keyError m)) : s.popAll t = .ok [] := by
  rw [tasks.popAll]
  split
  · rfl
  · rename_i heq
    rw [h] at heq
    cases heq
  · rename_i task s' t' heq
    rw [h] at heq
    cases heq

theorem tasks.popAll_eq_timeout [DecidableEq α] (s : tasks α) (t : Nat)
    (h : s.pop t = .error .timeoutErr) : s.popAll t = .error .timeoutErr := by
  rw [tasks.popAll]
  split
  · rename_i m heq
    rw [h] at heq
    cases heq
  · rfl
  · rename_i task s' t' heq
    rw [h] at heq
    cases heq

theorem tasks.popAll_eq_ok [DecidableEq α] (s : tasks α) (t : Nat) (task : Fut α)
    (s' : tasks α) (t' : Nat) (h : s.pop t = .ok (task, s', t')) :
    s.popAll t = match s'.popAll t' with
      | .error e => .error e
      | .ok rest => .ok (task :: rest) := by
  rw [tasks.popAll]
  split
  · rename_i m heq
    rw [h] at heq
    cases heq
  · rename_i heq
    rw [h] at heq
    cases heq
  · rename_i task1 s1 t1 heq
    rw [h] at heq
    injection heq with heq
    rw [Prod.mk.injEq] at heq
    obtain ⟨h1, heq⟩ := heq
    rw [Prod.mk.injEq] at heq
    obtain ⟨h2, h3⟩ := heq
    subst h1
    subst h2
    subst h3
    rfl

theorem tasks.pop_empty [DecidableEq α] (tmo : Option Nat) (t : Nat) :
    (tasks.mk tmo ([] : List (Fut α))).pop t =
      .error (.keyError "pop from an empty set") := rfl

theorem tasks.pop_none_ok [DecidableEq α] (s : tasks α) (t : Nat)
    (hto : s.timeout = none) (hne : s.elems ≠ []) :
    ∃ task s' t', s.pop t = .ok (task, s', t') := by
  rcases s with ⟨tmo, elems⟩
  cases elems with
  | nil => exact absurd rfl hne
  | cons f0 fs0 =>
    simp only at hto
    subst hto
    have hdne := waitDone_ne_nil t (f0 :: fs0) (List.cons_ne_nil _ _)
    cases hw : (wait t none (f0 :: fs0)).1 with
    | nil => exact absurd hw hdne
    | cons task dt =>
      refine ⟨task, ⟨none, (f0 :: fs0).erase task⟩, (wait t none (f0 :: fs0)).2.2, ?_⟩
      simp only [tasks.pop]
      rw [hw]

theorem tasks.pop_timeout [DecidableEq α] (s : tasks α) (t T : Nat)
    (hto : s.timeout = some T) (hne : s.elems ≠ [])
    (h : t + T < minCtime s.elems) : s.pop t = .error .timeoutErr := by
  rcases s with ⟨tmo, elems⟩
  cases elems with
  | nil => exact absurd rfl hne
  | cons f0 fs0 =>
    simp only at hto h
    subst hto
    simp only [tasks.pop]
    have hw : (wait t (some T) (f0 :: fs0)).1 = [] := by simp [wait, h]
    rw [hw]

/-- Model of futured.tasks.__exit__: leaving the context manager iterates the
as-completed generator over the remaining members to exhaustion with the
configured timeout, waiting for every remaining task or propagating the
timeout failure raised by a fruitless bounded wait. -/
def tasks.exit (s : tasks α) (t : Nat) : Except TimeoutErr Unit :=
  match asCompleted s.timeout t s.elems with
  | .error e => .error e
  | .ok _ => .ok ()

theorem tasks.popAll_none_bounded [DecidableEq α] :
    ∀ (n : Nat) (s : tasks α) (t : Nat), s.elems.length ≤ n → s.timeout = none →
      ∃ out, s.popAll t = .ok out ∧ List.Perm out s.elems := by
  intro n
  induction n with
  | zero =>
    intro s t hlen hto
    have hnil : s.elems = [] := List.length_eq_zero.1 (Nat.le_zero.1 hlen)
    have hpop : s.pop t = .error (.keyError "pop from an empty set") := by
      rcases s with ⟨tmo, elems⟩
      simp only at hnil
      subst hnil
      exact tasks.pop_empty tmo t
    exact ⟨[], tasks.popAll_eq_keyError s t _ hpop, by rw [hnil]⟩
  | succ n ih =>
    intro s t hlen hto
    by_cases hne : s.elems = []
    · have hpop : s.pop t = .error (.keyError "pop from an empty set") := by
        rcases s with ⟨tmo, elems⟩
        simp only at hne
        subst hne
        exact tasks.pop_empty tmo t
      exact ⟨[], tasks.popAll_eq_keyError s t _ hpop, by rw [hne]⟩
    · rcases tasks.pop_none_ok s t hto hne with ⟨task, s', t', hpop⟩
      obtain ⟨hmem, hsel, hsto⟩ := tasks.pop_ok s t task s' t' hpop
      have hlen' : s'.elems.length ≤ n := by
        rw [hsel]
        have := length_erase_lt task s.elems hmem
        omega
      rcases ih s' t' hlen' (by rw [hsto, hto]) with ⟨out, hout, hperm⟩
      refine ⟨task :: out, ?_, ?_⟩
      · rw [tasks.popAll_eq_ok s t task s' t' hpop, hout]
      · have hp : List.Perm (task :: out) (task :: s.elems.erase task) :=
          List.Perm.cons task (by rw [← hsel]; exact hperm)
        exact hp.trans (List.perm_cons_erase hmem).symm

/-- Round-trip consumption: with no timeout configured, repeatedly popping a
tasks set yields exactly its members, each exactly once, ending with KeyError
when and only when the set has become empty. -/
theorem tasks.popAll_none [DecidableEq α] (s : tasks α) (t : Nat)
    (hto : s.timeout = none) :
    ∃ out, s.popAll t = .ok out ∧ List.Perm out s.elems :=
  tasks.popAll_none_bounded s.elems.length s t (Nat.le_refl _) hto

/-- Association-list lookup keyed on the first component, mirroring Python
dict indexing. -/
def assoc [DecidableEq β] : List (β × κ) → β → Option κ
  | [], _ => none
  | p :: d, f => if p.1 = f then some p.2 else assoc d f

/-- Python dict assignment d[f] = k: an existing key keeps its position with
its value overwritten, a new key is appended. -/
def dictUpdate [DecidableEq β] (d : List (β × κ)) (f : β) (k : κ) : List (β × κ) :=
  if (assoc d f).isSome then d.map (fun p => if p.1 = f then (f, k) else p)
  else d ++ [(f, k)]

/-- Model of keys = dict(map(reversed, pairs)) in futured.items: the mapping
from future handle back to key, built by inserting each (key, future) pair
reversed in order, so that a later pair sharing an identical handle overwrites
the earlier pair's key. -/
def itemsKeys [DecidableEq α] (pairs : List (κ × Fut α)) : List (Fut α × κ) :=
  pairs.foldl (fun d p => dictUpdate d p.2 p.1) []

/-- Model of futured.items: generate (key, result) pairs as the futures
complete, recovering each key from the handle-keyed mapping. -/
def items [DecidableEq α] [Inhabited κ] (timeout : Option Nat)
    (pairs : List (κ × Fut α)) : Except TimeoutErr (List (κ × α)) :=
  match asCompleted timeout 0 ((itemsKeys pairs).map Prod.fst) with
  | .error e => .error e
  | .ok gs => .ok (gs.map (fun f => ((assoc (itemsKeys pairs) f).getD default, f.value)))

theorem assoc_append [DecidableEq β] (d1 d2 : List (β × κ)) (f : β) :
    assoc (d1 ++ d2) f = match assoc d1 f with
      | some k => some k
      | none => assoc d2 f := by
  induction d1 with
  | nil => rfl
  | cons p d ih => by_cases h : p.1 = f <;> simp [assoc, h, ih]

theorem itemsKeys_aux [DecidableEq α] (pairs : List (κ × Fut α)) :
    ∀ d : List (Fut α × κ), (∀ p ∈ pairs, assoc d p.2 = none) →
      (pairs.map Prod.snd).Nodup →
      pairs.foldl (fun d p => dictUpdate d p.2 p.1) d =
        d ++ pairs.map (fun p => (p.2, p.1)) := by
  induction pairs with
  | nil =>
    intro d h hd
    simp
  | cons p ps ih =>
    intro d h hd
    rw [List.map_cons, List.nodup_cons] at hd
    rw [List.foldl_cons]
    have hnone : assoc d p.2 = none := h p (List.mem_cons_self _ _)
    have hupd : dictUpdate d p.2 p.1 = d ++ [(p.2, p.1)] := by
      simp [dictUpdate, hnone]
    rw [hupd, ih (d ++ [(p.2, p.1)]) ?_ hd.2]
    · simp
    · intro q hq
      rw [assoc_append]
      have hq2 : assoc d q.2 = none := h q (List.mem_cons_of_mem p hq)
      rw [hq2]
      have hne : p.2 ≠ q.2 := by
        intro hEq
        exact hd.1 (hEq ▸ List.mem_map_of_mem Prod.snd hq)
      simp [assoc, hne]

/-- With pairwise distinct handles, the handle-keyed mapping is exactly the
input pairs reversed, in order. -/
theorem itemsKeys_nodup [DecidableEq α] (pairs : List (κ × Fut α))
    (hnd : (pairs.map Prod.snd).Nodup) :
    itemsKeys pairs = pairs.map (fun p => (p.2, p.1)) := by
  rw [itemsKeys, itemsKeys_aux pairs [] (fun p _ => rfl) hnd]
  rfl

theorem assoc_swap [DecidableEq α] (pairs : List (κ × Fut α))
    (hnd : (pairs.map Prod.snd).Nodup) :
    ∀ q ∈ pairs, assoc (pairs.map (fun p => (p.2, p.1))) q.2 = some q.1 := by
  induction pairs with
  | nil =>
    intro q hq
    cases hq
  | cons p ps ih =>
    rw [List.map_cons, List.nodup_cons] at hnd
    intro q hq
    rcases List.mem_cons.1 hq with hq | hq
    · subst hq
      simp [assoc]
    · have hne : p.2 ≠ q.2 := by
        intro hEq
        exact hnd.1 (hEq ▸ List.mem_map_of_mem Prod.snd hq)
      rw [List.map_cons]
      show (if (p.2, p.1).1 = q.2 then some (p.2, p.1).2 else
        assoc (ps.map (fun p => (p.2, p.1))) q.2) = some q.1
      rw [if_neg hne]
      exact ih hnd.2 q hq

/-- With pairwise distinct handles, items streams back exactly one (key,
value) pair per input pair, keyed correctly, in completion order. -/
theorem items_ok_perm_sorted [DecidableEq α] [Inhabited κ] (timeout : Option Nat)
    (pairs : List (κ × Fut α)) (hnd : (pairs.map Prod.snd).Nodup)
    (out : List (κ × α)) (h : items timeout pairs = .ok out) :
    ∃ ps, List.Perm ps pairs ∧ List.Pairwise (fun a b => a.2.ctime ≤ b.2.ctime) ps ∧
      out = ps.map (fun p => (p.1, p.2.value)) := by
  rw [items] at h
  cases hac : asCompleted timeout 0 ((itemsKeys pairs).map Prod.fst) with
  | error e =>
    rw [hac] at h
    cases h
  | ok gs =>
    rw [hac] at h
    injection h with h
    have hkeys := itemsKeys_nodup pairs hnd
    have hfst : (itemsKeys pairs).map Prod.fst = pairs.map Prod.snd := by
      rw [hkeys, List.map_map]
      rfl
    rw [hfst] at hac
    obtain ⟨hperm, hsort⟩ := asCompleted_perm_sorted timeout 0 (pairs.map Prod.snd)
      (fun f _ => Nat.zero_le _) gs hac
    refine ⟨gs.map (fun f => ((assoc (itemsKeys pairs) f).getD default, f)), ?_, ?_, ?_⟩
    · have hmap : (pairs.map Prod.snd).map
          (fun f => ((assoc (itemsKeys pairs) f).getD default, f)) = pairs := by
        rw [List.map_map]
        have : ∀ p ∈ pairs,
            ((assoc (itemsKeys pairs) p.2).getD default, p.2) = p := by
          intro p hp
          rw [hkeys, assoc_swap pairs hnd p hp]
          rfl
        calc pairs.map ((fun f => ((assoc (itemsKeys pairs) f).getD default, f)) ∘ Prod.snd)
            = pairs.map (fun p => p) := List.map_congr_left this
          _ = pairs := List.map_id' pairs
      have hp2 := hperm.map (fun f => ((assoc (itemsKeys pairs) f).getD default, f))
      rw [hmap] at hp2
      exact hp2
    · rw [List.pairwise_map]
      exact hsort
    · rw [← h, List.map_map]
      rfl

/-- Failure from the bounded process supervisor forked: a child exited with
nonzero status (OSError carrying the status and the originating input value),
or the modelled stream of os.wait events ran out while the supervisor still
had to block in os.wait. -/
inductive forkedErr (α : Type) where
  | childFailed (status : Nat) (value : α)
  | stuck
deriving DecidableEq, Repr

/-- Model of the inner wait() of forked: os.wait returns a (pid, status)
event; if the pid is one of the supervisor's children, its record is removed
and a nonzero exit status raises OSError(status, value) carrying the original
input value the child was spawned for; an unknown pid is ignored. -/
def forkedWait (workers : List (Nat × α)) (ev : Nat × Nat) :
    Except (forkedErr α) (List (Nat × α)) :=
  match assoc workers ev.1 with
  | some v =>
    if ev.2 ≠ 0 then .error (.childFailed ev.2 v)
    else .ok (workers.filter (fun w => ! decide (w.1 = ev.1)))
  | none => .ok workers

/-- Drain loop of forked (the final while workers: wait()): while records
remain, block on the next os.wait event.  Returns the trace of workers-table
states passed through and, on normal completion, the final (empty) table. -/
def forkedDrain (events : List (Nat × Nat)) (workers : List (Nat × α)) :
    List (List (Nat × α)) × Except (forkedErr α) (List (Nat × α)) :=
  match workers with
  | [] => ([[]], .ok [])
  | a :: l =>
    match events with
    | [] => ([a :: l], .error .stuck)
    | e :: es =>
      match forkedWait (a :: l) e with
      | .error err => ([a :: l], .error err)
      | .ok w' => ((a :: l) :: (forkedDrain es w').1, (forkedDrain es w').2)

/-- Spawn loop of forked: for each input value, first block on os.wait events
while max_workers records are live, then fork a child with the next fresh pid
and record (pid, value); after the last value the remaining children are
drained.  Returns the trace of workers-table states and the outcome. -/
def forkedGo (maxW : Nat) (values : List α) (events : List (Nat × Nat))
    (nextPid : Nat) (workers : List (Nat × α)) :
    List (List (Nat × α)) × Except (forkedErr α) (List (Nat × α)) :=
  match values with
  | [] => forkedDrain events workers
  | v :: vs =>
    if maxW ≤ workers.length then
      match events with
      | [] => ([workers], .error .stuck)
      | e :: es =>
        match forkedWait workers e with
        | .error err => ([workers], .error err)
        | .ok w' =>
          (workers :: (forkedGo maxW (v :: vs) es nextPid w').1,
           (forkedGo maxW (v :: vs) es nextPid w').2)
    else
      (workers :: (forkedGo maxW vs events (nextPid + 1) (workers ++ [(nextPid, v)])).1,
       (forkedGo maxW vs events (nextPid + 1) (workers ++ [(nextPid, v)])).2)
termination_by (events.length, values.length)

/-- Model of forked(values, max_workers): one child per input value with fresh
pids 0, 1, 2, …, at most max_workers records live at once; events is the
sequence of (pid, exit status) outcomes that successive os.wait calls deliver.
Returns the trace of workers-table states and the outcome (the final, empty,
table on normal return). -/
def forked (values : List α) (maxWorkers : Nat) (events : List (Nat × Nat)) :
    List (List (Nat × α)) × Except (forkedErr α) (List (Nat × α)) :=
  forkedGo maxWorkers values events 0 []

/-- Structured failure raised by command.check on nonzero exit:
subprocess.CalledProcessError(returncode, cmd, output, stderr). -/
structure CalledProcessError where
  returncode : Int
  cmd : List String
  output : String
  stderr : String
deriving DecidableEq, Repr

/-- Model of futured.command once the wrapped process has exited: the
command-line arguments, the exit code, and the captured stdout and stderr
(both piped, never inherited). -/
structure command where
  args : List String
  returncode : Int
  stdout : String
  stderr : String
deriving DecidableEq, Repr

/-- Model of command.communicate(): blocks until exit and hands back the
captured (stdout, stderr) pair. -/
def command.communicate (c : command) : String × String :=
  (c.stdout, c.stderr)

/-- Model of command.check: return stdout when the exit code is falsy (zero),
otherwise raise CalledProcessError(returncode, args, stdout, stderr). -/
def command.check (c : command) (args : List String) (out err : String) :
    Except CalledProcessError String :=
  if c.returncode ≠ 0 then .error ⟨c.returncode, args, out, err⟩ else .ok out

/-- Model of command.result: wait for the process to exit (communicate) and
return its stdout, or raise the structured error on nonzero exit. -/
def command.result (c : command) : Except CalledProcessError String :=
  c.check c.args c.communicate.1 c.communicate.2

theorem assoc_mem [DecidableEq β] (d : List (β × κ)) (f : β) (k : κ)
    (h : assoc d f = some k) : (f, k) ∈ d := by
  induction d with
  | nil => cases h
  | cons p ps ih =>
    rw [assoc] at h
    by_cases hp : p.1 = f
    · rw [if_pos hp] at h
      injection h with h
      have hpk : p = (f, k) := by
        rw [Prod.ext_iff]
        exact ⟨hp, h⟩
      rw [← hpk]
      exact List.mem_cons_self _ _
    · rw [if_neg hp] at h
      exact List.mem_cons_of_mem _ (ih h)

theorem forkedWait_ok_length (workers : List (Nat × α)) (ev : Nat × Nat)
    (w' : List (Nat × α)) (h : forkedWait workers ev = .ok w') :
    w'.length ≤ workers.length := by
  rw [forkedWait] at h
  split at h
  · split at h
    · cases h
    · injection h with h
      subst h
      exact List.length_filter_le _ _
  · injection h with h
    subst h
    exact Nat.le_refl _

theorem forkedWait_ok_values (workers : List (Nat × α)) (ev : Nat × Nat)
    (w' : List (Nat × α)) (h : forkedWait workers ev = .ok w') :
    ∀ v ∈ w'.map Prod.snd, v ∈ workers.map Prod.snd := by
  rw [forkedWait] at h
  split at h
  · split at h
    · cases h
    · injection h with h
      subst h
      intro v hv
      rcases List.mem_map.1 hv with ⟨w, hw, hweq⟩
      exact List.mem_map.2 ⟨w, List.mem_of_mem_filter hw, hweq⟩
  · injection h with h
    subst h
    exact fun v hv => hv

theorem forkedWait_childFailed (workers : List (Nat × α)) (ev : Nat × Nat)
    (s : Nat) (v : α) (h : forkedWait workers ev = .error (.childFailed s v)) :
    s ≠ 0 ∧ (ev.1, v) ∈ workers ∧ s = ev.2 := by
  rw [forkedWait] at h
  split at h
  · rename_i v0 ha
    split at h
    · rename_i hs
      injection h with h
      injection h with h1 h2
      subst h1
      subst h2
      exact ⟨hs, assoc_mem _ _ _ ha, rfl⟩
    · cases h
  · cases h

theorem forkedGo_nil (maxW : Nat) (events : List (Nat × Nat)) (nextPid : Nat)
    (workers : List (Nat × α)) :
    forkedGo maxW [] events nextPid workers = forkedDrain events workers := by
  rw [forkedGo.eq_def]

theorem forkedGo_cons (maxW : Nat) (v : α) (vs : List α) (events : List (Nat × Nat))
    (nextPid : Nat) (workers : List (Nat × α)) :
    forkedGo maxW (v :: vs) events nextPid workers =
      if maxW ≤ workers.length then
        match events with
        | [] => ([workers], .error .stuck)
        | e :: es =>
          match forkedWait workers e with
          | .error err => ([workers], .error err)
          | .ok w' =>
            (workers :: (forkedGo maxW (v :: vs) es nextPid w').1,
             (forkedGo maxW (v :: vs) es nextPid w').2)
      else
        (workers :: (forkedGo maxW vs events (nextPid + 1) (workers ++ [(nextPid, v)])).1,
         (forkedGo maxW vs events (nextPid + 1) (workers ++ [(nextPid, v)])).2) := by
  rw [forkedGo.eq_def]

theorem forkedDrain_bounded (maxW : Nat) :
    ∀ (events : List (Nat × Nat)) (workers : List (Nat × α)),
      workers.length ≤ maxW →
      ∀ w ∈ (forkedDrain events workers).1, w.length ≤ maxW := by
  intro events
  induction events with
  | nil =>
    intro workers hw w hmem
    cases workers with
    | nil =>
      rw [forkedDrain] at hmem
      rcases List.mem_singleton.1 hmem with rfl
      exact Nat.zero_le _
    | cons a l =>
      rw [forkedDrain] at hmem
      rcases List.mem_singleton.1 hmem with rfl
      exact hw
  | cons e es ih =>
    intro workers hw w hmem
    cases workers with
    | nil =>
      rw [forkedDrain] at hmem
      rcases List.mem_singleton.1 hmem with rfl
      exact Nat.zero_le _
    | cons a l =>
      rw [forkedDrain] at hmem
      cases hfw : forkedWait (a :: l) e with
      | error err =>
        rw [hfw] at hmem
        rcases List.mem_singleton.1 hmem with rfl
        exact hw
      | ok w' =>
        rw [hfw] at hmem
        rcases List.mem_cons.1 hmem with rfl | hmem
        · exact hw
        · exact ih w' (Nat.le_trans (forkedWait_ok_length _ _ _ hfw) hw) w hmem

theorem forkedGo_bounded_aux (maxW : Nat) :
    ∀ (n : Nat) (values : List α) (events : List (Nat × Nat)) (nextPid : Nat)
      (workers : List (Nat × α)),
      values.length + events.length ≤ n → workers.length ≤ maxW →
      ∀ w ∈ (forkedGo maxW values events nextPid workers).1, w.length ≤ maxW := by
  intro n
  induction n with
  | zero =>
    intro values events nextPid workers hlen hw w hmem
    have hv : values = [] := by
      cases values with
      | nil => rfl
      | cons v vs => simp [List.length_cons] at hlen
    subst hv
    rw [forkedGo_nil] at hmem
    exact forkedDrain_bounded maxW events workers hw w hmem
  | succ n ih =>
    intro values events nextPid workers hlen hw w hmem
    cases values with
    | nil =>
      rw [forkedGo_nil] at hmem
      exact forkedDrain_bounded maxW events workers hw w hmem
    | cons v vs =>
      rw [forkedGo_cons] at hmem
      by_cases hfull : maxW ≤ workers.length
      · rw [if_pos hfull] at hmem
        cases events with
        | nil =>
          rcases List.mem_singleton.1 hmem with rfl
          exact hw
        | cons e es =>
          replace hmem : w ∈ (match forkedWait workers e with
            | Except.error err => ([workers], Except.error err)
            | Except.ok w' =>
              (workers :: (forkedGo maxW (v :: vs) es nextPid w').1,
               (forkedGo maxW (v :: vs) es nextPid w').2)).1 := hmem
          cases hfw : forkedWait workers e with
          | error err =>
            rw [hfw] at hmem
            rcases List.mem_singleton.1 hmem with rfl
            exact hw
          | ok w' =>
            rw [hfw] at hmem
            rcases List.mem_cons.1 hmem with rfl | hmem
            · exact hw
            · have hlen' : (v :: vs).length + es.length ≤ n := by
                simp only [List.length_cons] at hlen ⊢
                omega
              exact ih (v :: vs) es nextPid w' hlen'
                (Nat.le_trans (forkedWait_ok_length _ _ _ hfw) hw) w hmem
      · rw [if_neg hfull] at hmem
        rcases List.mem_cons.1 hmem with rfl | hmem
        · exact hw
        · have hlen' : vs.length + events.length ≤ n := by
            simp only [List.length_cons] at hlen
            omega
          have hw' : (workers ++ [(nextPid, v)]).length ≤ maxW := by
            rw [List.length_append, List.length_singleton]
            omega
          exact ih vs events (nextPid + 1) (workers ++ [(nextPid, v)]) hlen' hw' w hmem

/-- At every instant the supervisor holds at most maxWorkers live records. -/
theorem forked_bounded (values : List α) (maxWorkers : Nat)
    (events : List (Nat × Nat)) :
    ∀ w ∈ (forked values maxWorkers events).1, w.length ≤ maxWorkers :=
  forkedGo_bounded_aux maxWorkers (values.length + events.length) values events 0 []
    (Nat.le_refl _) (Nat.zero_le _)

theorem forkedDrain_ok_empty :
    ∀ (events : List (Nat × Nat)) (workers w : List (Nat × α)),
      (forkedDrain events workers).2 = .ok w → w = [] := by
  intro events
  induction events with
  | nil =>
    intro workers w h
    cases workers with
    | nil =>
      rw [forkedDrain] at h
      injection h with h
      exact h.symm
    | cons a l =>
      rw [forkedDrain] at h
      cases h
  | cons e es ih =>
    intro workers w h
    cases workers with
    | nil =>
      rw [forkedDrain] at h
      injection h with h
      exact h.symm
    | cons a l =>
      rw [forkedDrain] at h
      cases hfw : forkedWait (a :: l) e with
      | error err =>
        rw [hfw] at h
        cases h
      | ok w' =>
        rw [hfw] at h
        exact ih w' w h

theorem forkedGo_ok_empty (maxW : Nat) :
    ∀ (n : Nat) (values : List α) (events : List (Nat × Nat)) (nextPid : Nat)
      (workers w : List (Nat × α)),
      values.length + events.length ≤ n →
      (forkedGo maxW values events nextPid workers).2 = .ok w → w = [] := by
  intro n
  induction n with
  | zero =>
    intro values events nextPid workers w hlen h
    have hv : values = [] := by
      cases values with
      | nil => rfl
      | cons v vs => simp [List.length_cons] at hlen
    subst hv
    rw [forkedGo_nil] at h
    exact forkedDrain_ok_empty events workers w h
  | succ n ih =>
    intro values events nextPid workers w hlen h
    cases values with
    | nil =>
      rw [forkedGo_nil] at h
      exact forkedDrain_ok_empty events workers w h
    | cons v vs =>
      rw [forkedGo_cons] at h
      by_cases hfull : maxW ≤ workers.length
      · rw [if_pos hfull] at h
        cases events with
        | nil => cases h
        | cons e es =>
          replace h : (match forkedWait workers e with
            | Except.error err => ([workers], Except.error err)
            | Except.ok w' =>
              (workers :: (forkedGo maxW (v :: vs) es nextPid w').1,
               (forkedGo maxW (v :: vs) es nextPid w').2)).2 = .ok w := h
          cases hfw : forkedWait workers e with
          | error err =>
            rw [hfw] at h
            cases h
          | ok w' =>
            rw [hfw] at h
            have hlen' : (v :: vs).length + es.length ≤ n := by
              simp only [List.length_cons] at hlen ⊢
              omega
            exact ih (v :: vs) es nextPid w' w hlen' h
      · rw [if_neg hfull] at h
        have hlen' : vs.length + events.length ≤ n := by
          simp only [List.length_cons] at hlen
          omega
        exact ih vs events (nextPid + 1) (workers ++ [(nextPid, v)]) w hlen' h

/-- A forked run that returns normally has reaped every child: zero live
records remain. -/
theorem forked_ok_empty (values : List α) (maxWorkers : Nat)
    (events : List (Nat × Nat)) (w : List (Nat × α))
    (h : (forked values maxWorkers events).2 = .ok w) : w = [] :=
  forkedGo_ok_empty maxWorkers (values.length + events.length) values events 0 [] w
    (Nat.le_refl _) h

theorem forkedWait_zero (workers : List (Nat × α)) (ev : Nat × Nat)
    (hz : ev.2 = 0) : ∃ w', forkedWait workers ev = .ok w' := by
  cases ha : assoc workers ev.1 with
  | none => exact ⟨workers, by simp [forkedWait, ha]⟩
  | some v =>
    exact ⟨workers.filter (fun w => ! decide (w.1 = ev.1)), by simp [forkedWait, ha, hz]⟩

theorem forkedWait_nonzero (workers : List (Nat × α)) (pid status : Nat) (v : α)
    (ha : assoc workers pid = some v) (hs : status ≠ 0) :
    forkedWait workers (pid, status) = .error (.childFailed status v) := by
  simp [forkedWait, ha, hs]

theorem forkedWait_zero_known (workers : List (Nat × α)) (pid : Nat) (v : α)
    (ha : assoc workers pid = some v) :
    forkedWait workers (pid, 0) = .ok (workers.filter (fun w => ! decide (w.1 = pid))) := by
  simp [forkedWait, ha]

theorem forkedDrain_zero_no_fail :
    ∀ (events : List (Nat × Nat)) (workers : List (Nat × α)) (s : Nat) (v : α),
      (∀ e ∈ events, e.2 = 0) →
      (forkedDrain events workers).2 ≠ .error (.childFailed s v) := by
  intro events
  induction events with
  | nil =>
    intro workers s v hz h
    cases workers with
    | nil =>
      rw [forkedDrain] at h
      cases h
    | cons a l =>
      rw [forkedDrain] at h
      injection h with h
      cases h
  | cons e es ih =>
    intro workers s v hz h
    cases workers with
    | nil =>
      rw [forkedDrain] at h
      cases h
    | cons a l =>
      rw [forkedDrain] at h
      rcases forkedWait_zero (a :: l) e (hz e (List.mem_cons_self _ _)) with ⟨w', hw'⟩
      rw [hw'] at h
      exact ih w' s v (fun e' he' => hz e' (List.mem_cons_of_mem _ he')) h

theorem forkedGo_zero_no_fail (maxW : Nat) :
    ∀ (n : Nat) (values : List α) (events : List (Nat × Nat)) (nextPid : Nat)
      (workers : List (Nat × α)) (s : Nat) (v : α),
      values.length + events.length ≤ n → (∀ e ∈ events, e.2 = 0) →
      (forkedGo maxW values events nextPid workers).2 ≠ .error (.childFailed s v) := by
  intro n
  induction n with
  | zero =>
    intro values events nextPid workers s v hlen hz h
    have hv : values = [] := by
      cases values with
      | nil => rfl
      | cons v0 vs => simp [List.length_cons] at hlen
    subst hv
    rw [forkedGo_nil] at h
    exact forkedDrain_zero_no_fail events workers s v hz h
  | succ n ih =>
    intro values events nextPid workers s v hlen hz h
    cases values with
    | nil =>
      rw [forkedGo_nil] at h
      exact forkedDrain_zero_no_fail events workers s v hz h
    | cons v0 vs =>
      rw [forkedGo_cons] at h
      by_cases hfull : maxW ≤ workers.length
      · rw [if_pos hfull] at h
        cases events with
        | nil => cases h
        | cons e es =>
          replace h : (match forkedWait workers e with
            | Except.error err => ([workers], Except.error err)
            | Except.ok w' =>
              (workers :: (forkedGo maxW (v0 :: vs) es nextPid w').1,
               (forkedGo maxW (v0 :: vs) es nextPid w').2)).2 =
              .error (.childFailed s v) := h
          rcases forkedWait_zero workers e (hz e (List.mem_cons_self _ _)) with ⟨w', hw'⟩
          rw [hw'] at h
          have hlen' : (v0 :: vs).length + es.length ≤ n := by
            simp only [List.length_cons] at hlen ⊢
            omega
          exact ih (v0 :: vs) es nextPid w' s v hlen'
            (fun e' he' => hz e' (List.mem_cons_of_mem _ he')) h
      · rw [if_neg hfull] at h
        have hlen' : vs.length + events.length ≤ n := by
          simp only [List.length_cons] at hlen
          omega
        exact ih vs events (nextPid + 1) (workers ++ [(nextPid, v0)]) s v hlen' hz h

theorem forkedDrain_childFailed :
    ∀ (events : List (Nat × Nat)) (workers : List (Nat × α)) (s : Nat) (v : α),
      (forkedDrain events workers).2 = .error (.childFailed s v) →
      s ≠ 0 ∧ v ∈ workers.map Prod.snd := by
  intro events
  induction events with
  | nil =>
    intro workers s v h
    cases workers with
    | nil =>
      rw [forkedDrain] at h
      cases h
    | cons a l =>
      rw [forkedDrain] at h
      injection h with h
      cases h
  | cons e es ih =>
    intro workers s v h
    cases workers with
    | nil =>
      rw [forkedDrain] at h
      cases h
    | cons a l =>
      rw [forkedDrain] at h
      cases hfw : forkedWait (a :: l) e with
      | error err =>
        rw [hfw] at h
        injection h with h
        subst h
        obtain ⟨hs, hmem, hsev⟩ := forkedWait_childFailed _ _ _ _ hfw
        exact ⟨hs, List.mem_map.2 ⟨(e.1, v), hmem, rfl⟩⟩
      | ok w' =>
        rw [hfw] at h
        obtain ⟨hs, hmem⟩ := ih w' s v h
        exact ⟨hs, forkedWait_ok_values _ _ _ hfw v hmem⟩

theorem forkedGo_childFailed (maxW : Nat) :
    ∀ (n : Nat) (values : List α) (events : List (Nat × Nat)) (nextPid : Nat)
      (workers : List (Nat × α)) (s : Nat) (v : α),
      values.length + events.length ≤ n →
      (forkedGo maxW values events nextPid workers).2 = .error (.childFailed s v) →
      s ≠ 0 ∧ (v ∈ workers.map Prod.snd ∨ v ∈ values) := by
  intro n
  induction n with
  | zero =>
    intro values events nextPid workers s v hlen h
    have hv : values = [] := by
      cases values with
      | nil => rfl
      | cons v0 vs => simp [List.length_cons] at hlen
    subst hv
    rw [forkedGo_nil] at h
    obtain ⟨hs, hmem⟩ := forkedDrain_childFailed events workers s v h
    exact ⟨hs, Or.inl hmem⟩
  | succ n ih =>
    intro values events nextPid workers s v hlen h
    cases values with
    | nil =>
      rw [forkedGo_nil] at h
      obtain ⟨hs, hmem⟩ := forkedDrain_childFailed events workers s v h
      exact ⟨hs, Or.inl hmem⟩
    | cons v0 vs =>
      rw [forkedGo_cons] at h
      by_cases hfull : maxW ≤ workers.length
      · rw [if_pos hfull] at h
        cases events with
        | nil => cases h
        | cons e es =>
          replace h : (match forkedWait workers e with
            | Except.error err => ([workers], Except.error err)
            | Except.ok w' =>
              (workers :: (forkedGo maxW (v0 :: vs) es nextPid w').1,
               (forkedGo maxW (v0 :: vs) es nextPid w').2)).2 =
              .error (.childFailed s v) := h
          cases hfw : forkedWait workers e with
          | error err =>
            rw [hfw] at h
            injection h with h
            subst h
            obtain ⟨hs, hmem, hsev⟩ := forkedWait_childFailed _ _ _ _ hfw
            exact ⟨hs, Or.inl (List.mem_map.2 ⟨(e.1, v), hmem, rfl⟩)⟩
          | ok w' =>
            rw [hfw] at h
            have hlen' : (v0 :: vs).length + es.length ≤ n := by
              simp only [List.length_cons] at hlen ⊢
              omega
            obtain ⟨hs, hmem⟩ := ih (v0 :: vs) es nextPid w' s v hlen' h
            rcases hmem with hmem | hmem
            · exact ⟨hs, Or.inl (forkedWait_ok_values _ _ _ hfw v hmem)⟩
            · exact ⟨hs, Or.inr hmem⟩
      · rw [if_neg hfull] at h
        have hlen' : vs.length + events.length ≤ n := by
          simp only [List.length_cons] at hlen
          omega
        obtain ⟨hs, hmem⟩ := ih vs events (nextPid + 1) (workers ++ [(nextPid, v0)])
          s v hlen' h
        rcases hmem with hmem | hmem
        · rw [List.map_append] at hmem
          rcases List.mem_append.1 hmem with hmem | hmem
          · exact ⟨hs, Or.inl hmem⟩
          · rcases List.mem_singleton.1 hmem with rfl
            exact ⟨hs, Or.inr (List.mem_cons_self _ _)⟩
        · exact ⟨hs, Or.inr (List.mem_cons_of_mem _ hmem)⟩

/-- A childFailed error out of forked carries a nonzero status and one of the
original input values. -/
theorem forked_childFailed (values : List α) (maxWorkers : Nat)
    (events : List (Nat × Nat)) (s : Nat) (v : α)
    (h : (forked values maxWorkers events).2 = .error (.childFailed s v)) :
    s ≠ 0 ∧ v ∈ values := by
  obtain ⟨hs, hmem⟩ := forkedGo_childFailed maxWorkers (values.length + events.length)
    values events 0 [] s v (Nat.le_refl _) h
  rcases hmem with hmem | hmem
  · cases hmem
  · exact ⟨hs, hmem⟩

/-- Modelled from the spec for contrast (design-notes open question): the
rejected alternative in which a single cumulative deadline bounds the whole
as-completed iteration; each cycle's wait budget is only what remains until
the fixed deadline instead of the full configured duration afresh. -/
def cumulativeAsCompleted (deadline : Nat) (t : Nat) (fs : List (Fut α)) :
    Except TimeoutErr (List (Fut α)) :=
  match fs with
  | [] => .ok []
  | f0 :: fs0 =>
    if h : (wait t (some (deadline - t)) (f0 :: fs0)).1.isEmpty then .error .timeout
    else
      match cumulativeAsCompleted deadline
          (wait t (some (deadline - t)) (f0 :: fs0)).2.2
          (wait t (some (deadline - t)) (f0 :: fs0)).2.1 with
      | .error e => .error e
      | .ok rest => .ok ((wait t (some (deadline - t)) (f0 :: fs0)).1 ++ rest)
termination_by fs.length
decreasing_by
  rcases wait_eq_cases t (some (deadline - t)) (f0 :: fs0) with ⟨T, _, _, hcase⟩ | hcase <;>
    rw [hcase] at h ⊢
  · simp at h
  · exact waitPending_lt _ _ (by
      intro hnil
      rw [hnil] at h
      simp at h)

theorem asCompleted_ok_perm (timeout : Option Nat) :
    ∀ (n t : Nat) (fs : List (Fut α)), fs.length ≤ n →
      ∀ gs, asCompleted timeout t fs = .ok gs → List.Perm gs fs := by
  intro n
  induction n with
  | zero =>
    intro t fs hlen gs h
    have hfs : fs = [] := List.length_eq_zero.1 (Nat.le_zero.1 hlen)
    subst hfs
    rw [asCompleted_nil] at h
    injection h with h
    subst h
    exact List.Perm.nil
  | succ n ih =>
    intro t fs hlen gs h
    cases fs with
    | nil =>
      rw [asCompleted_nil] at h
      injection h with h
      subst h
      exact List.Perm.nil
    | cons f0 fs0 =>
      rcases wait_eq_cases t timeout (f0 :: fs0) with ⟨T, hT, hlt, hcase⟩ | hcase
      · rw [asCompleted_cons timeout t f0 fs0 [] (f0 :: fs0) (t + T) hcase] at h
        simp at h
      · rw [asCompleted_cons timeout t f0 fs0 _ _ _ hcase] at h
        have hdne := waitDone_ne_nil t (f0 :: fs0) (List.cons_ne_nil _ _)
        rw [List.isEmpty_eq_false.2 hdne] at h
        simp only [Bool.false_eq_true, if_false] at h
        cases hrec : asCompleted timeout (max t (minCtime (f0 :: fs0)))
            (waitPending (max t (minCtime (f0 :: fs0))) (f0 :: fs0)) with
        | error e =>
          rw [hrec] at h
          cases h
        | ok rest =>
          rw [hrec] at h
          injection h with h
          subst h
          have hlen' := Nat.lt_succ_iff.1 (Nat.lt_of_lt_of_le (waitPending_lt _ _ hdne) hlen)
          have hperm := ih (max t (minCtime (f0 :: fs0))) _ hlen' rest hrec
          exact List.Perm.trans (List.Perm.append_left _ hperm) (waitDone_append_perm _ _)

/-- C1: for every batch of futures, results called without as_completed and
without any extra wait option yields the futures' values in submission order;
with as_completed or any wait option (e.g. timeout) supplied, it yields the
values in completion order — the values of a completion-time-sorted
permutation of the submitted futures. -/
theorem results_order (fs : List (Fut α)) (asC : Bool) (timeout : Option Nat) :
    (asC = false → timeout = none → results asC timeout fs = .ok (fs.map Fut.value)) ∧
    (asC = true ∨ timeout.isSome = true → ∀ out, results asC timeout fs = .ok out →
      ∃ gs, List.Perm gs fs ∧ List.Pairwise (fun a b => a.ctime ≤ b.ctime) gs ∧
        out = gs.map Fut.value) := by
  constructor
  · intro h1 h2
    subst h1
    subst h2
    rw [results]
    rfl
  · intro hc out hout
    have hcond : (asC || timeout.isSome) = true := by
      rcases hc with hc | hc
      · rw [hc]
        rfl
      · rw [hc, Bool.or_true]
    rw [results, hcond] at hout
    rw [if_pos rfl] at hout
    cases hac : asCompleted timeout 0 fs with
    | error e =>
      rw [hac] at hout
      cases hout
    | ok gs =>
      rw [hac] at hout
      obtain ⟨hperm, hsort⟩ :=
        asCompleted_perm_sorted timeout 0 fs (fun f _ => Nat.zero_le _) gs hac
      refine ⟨gs, hperm, hsort, ?_⟩
      injection hout with hout
      exact hout.symm

/-- Witness for C1: a concrete batch whose completion order ([20, 10]) differs
from its submission order ([10, 20]). -/
theorem results_order_witness :
    results false none [(⟨0, 2, 10⟩ : Fut Nat), ⟨1, 1, 20⟩] = .ok [10, 20] ∧
    ∃ gs, List.Perm gs [(⟨0, 2, 10⟩ : Fut Nat), ⟨1, 1, 20⟩] ∧
      List.Pairwise (fun a b => a.ctime ≤ b.ctime) gs ∧
      [20, 10] = gs.map Fut.value := by
  constructor
  · exact (results_order _ false none).1 rfl rfl
  · refine (results_order _ true none).2 (Or.inl rfl) [20, 10] ?_
    simp [results, asCompleted, wait, waitDone, waitPending, minCtime, Except.map]

/-- C2: a handle is removed from the set at the moment pop yields it as
completed and is never yielded twice; consuming the stream of a finite batch
(no timeout) by repeated pop yields exactly one completion per member, none
dropped, ending (KeyError) exactly when all member handles have been
yielded. -/
theorem tasks_stream_roundtrip [DecidableEq α] (s : tasks α) (t : Nat) :
    (∀ task s' t', s.pop t = .ok (task, s', t') →
      s'.elems = s.elems.erase task ∧ (s.elems.Nodup → task ∉ s'.elems)) ∧
    (s.timeout = none → ∃ out, s.popAll t = .ok out ∧ List.Perm out s.elems ∧
      (s.elems.Nodup → out.Nodup)) := by
  constructor
  · intro task s' t' hpop
    obtain ⟨hmem, hsel, _⟩ := tasks.pop_ok s t task s' t' hpop
    refine ⟨hsel, fun hnd => ?_⟩
    rw [hsel]
    intro hcon
    exact ((hnd.mem_erase_iff).1 hcon).1 rfl
  · intro hto
    rcases tasks.popAll_none s t hto with ⟨out, hout, hperm⟩
    exact ⟨out, hout, hperm, fun hnd => (hperm.nodup_iff).2 hnd⟩

/-- Witness for C2: a concrete two-member set, one pop step (the earlier
completion is yielded and removed), and the full round-trip consumption. -/
theorem tasks_stream_roundtrip_witness :
    (tasks.mk none [(⟨0, 5, 1⟩ : Fut Nat), ⟨1, 3, 2⟩]).pop 0 =
      .ok (⟨1, 3, 2⟩, tasks.mk none [⟨0, 5, 1⟩], 3) ∧
    (⟨1, 3, 2⟩ : Fut Nat) ∉ (tasks.mk none [(⟨0, 5, 1⟩ : Fut Nat)]).elems ∧
    ∃ out, (tasks.mk none [(⟨0, 5, 1⟩ : Fut Nat), ⟨1, 3, 2⟩]).popAll 0 = .ok out ∧
      List.Perm out [⟨0, 5, 1⟩, ⟨1, 3, 2⟩] := by
  have hpop : (tasks.mk none [(⟨0, 5, 1⟩ : Fut Nat), ⟨1, 3, 2⟩]).pop 0 =
      .ok (⟨1, 3, 2⟩, tasks.mk none [⟨0, 5, 1⟩], 3) := by
    simp [tasks.pop, wait, waitDone, waitPending, minCtime, List.erase]
    rfl
  refine ⟨hpop, ?_, ?_⟩
  · have h1 := (tasks_stream_roundtrip (tasks.mk none
      [(⟨0, 5, 1⟩ : Fut Nat), ⟨1, 3, 2⟩]) 0).1 _ _ _ hpop
    exact h1.2 (by decide)
  · rcases (tasks_stream_roundtrip (tasks.mk none
      [(⟨0, 5, 1⟩ : Fut Nat), ⟨1, 3, 2⟩]) 0).2 rfl with ⟨out, hout, hperm, _⟩
    exact ⟨out, hout, hperm⟩

/-- C3: every wait cycle uses the full configured timeout afresh (witnessed by
contrast with the cumulative-deadline variant on a batch whose successive
completions each fit within one fresh window but not under one cumulative
deadline); a cycle over a non-empty set that produces zero completions raises
the Timeout failure, out of as_completed and out of pop, and the member
operations — all still incomplete at the instant the wait gave up — remain
pending members of the set (a failed pop returns no modified set). -/
theorem timeout_per_cycle [DecidableEq α] (t T : Nat) (fs : List (Fut α))
    (hne : fs ≠ []) (hlate : t + T < minCtime fs) :
    asCompleted (some T) t fs = .error .timeout ∧
    (∀ s : tasks α, s.timeout = some T → s.elems = fs →
      s.pop t = .error .timeoutErr) ∧
    (∀ f ∈ fs, t + T < f.ctime) ∧
    asCompleted (some 1) 0 [(⟨0, 1, 0⟩ : Fut Nat), ⟨1, 2, 0⟩, ⟨2, 3, 0⟩] =
      .ok [⟨0, 1, 0⟩, ⟨1, 2, 0⟩, ⟨2, 3, 0⟩] ∧
    cumulativeAsCompleted 1 0 [(⟨0, 1, 0⟩ : Fut Nat), ⟨1, 2, 0⟩, ⟨2, 3, 0⟩] =
      .error .timeout := by
  refine ⟨asCompleted_timeout_raises T t fs hne hlate, ?_, ?_, ?_, ?_⟩
  · intro s hto hsel
    exact tasks.pop_timeout s t T hto (by rw [hsel]; exact hne)
      (by rw [hsel]; exact hlate)
  · intro f hf
    exact Nat.lt_of_lt_of_le hlate (minCtime_le fs f hf)
  · simp [asCompleted, wait, waitDone, waitPending, minCtime]
  · simp [cumulativeAsCompleted, wait, waitDone, waitPending, minCtime]

/-- Witness for C3: a singleton set completing at instant 5, waited on with
timeout 1 from instant 0. -/
theorem timeout_per_cycle_witness :
    asCompleted (some 1) 0 [(⟨0, 5, 0⟩ : Fut Nat)] = .error .timeout ∧
    (tasks.mk (some 1) [(⟨0, 5, 0⟩ : Fut Nat)]).pop 0 = .error .timeoutErr := by
  obtain ⟨h1, h2, h3, h4, h5⟩ := timeout_per_cycle 0 1 [(⟨0, 5, 0⟩ : Fut Nat)]
    (by decide) (by decide)
  exact ⟨h1, h2 _ rfl rfl⟩

/-- C4: with maxWorkers ≥ 1, at every instant of a forked run the supervisor
holds at most maxWorkers live child-process records; moreover when maxWorkers
records are live and a value remains to spawn, the supervisor does not spawn —
it blocks on a reap first (with no reap available it is stuck with the table
unchanged). -/
theorem forked_max_workers (values : List α) (maxWorkers : Nat)
    (events : List (Nat × Nat)) (h1 : 1 ≤ maxWorkers) :
    (∀ w ∈ (forked values maxWorkers events).1, w.length ≤ maxWorkers) ∧
    (∀ (v : α) (vs : List α) (nextPid : Nat) (workers : List (Nat × α)),
      maxWorkers ≤ workers.length →
      forkedGo maxWorkers (v :: vs) [] nextPid workers =
        ([workers], .error .stuck)) := by
  constructor
  · exact forked_bounded values maxWorkers events
  · intro v vs nextPid workers hfull
    rw [forkedGo_cons, if_pos hfull]

/-- Witness for C4: three values supervised with maxWorkers = 1; every state
of the run holds at most one live record, and a full table blocks spawning. -/
theorem forked_max_workers_witness :
    (∀ w ∈ (forked [10, 20, 30] 1 [(0, 0), (1, 0), (2, 0)]).1, w.length ≤ 1) ∧
    forkedGo 1 [(20 : Nat)] [] 1 [(0, 10)] = ([[(0, 10)]], .error .stuck) := by
  obtain ⟨h1, h2⟩ := forked_max_workers [10, 20, 30] 1 [(0, 0), (1, 0), (2, 0)]
    (Nat.le_refl 1)
  exact ⟨h1, h2 20 [] 1 [(0, 10)] (by decide)⟩

/-- C5: at a reap, a child that exited with nonzero status raises a failure
carrying that exit status together with the original input value the child was
spawned for, while a zero status raises nothing (the record is just removed);
a run all of whose children exit zero never raises childFailed, and any
childFailed failure out of a run carries a nonzero status and one of the run's
original input values. -/
theorem forked_child_failure (workers : List (Nat × α)) (pid status : Nat) (v : α)
    (ha : assoc workers pid = some v) :
    (status ≠ 0 → forkedWait workers (pid, status) =
      .error (.childFailed status v)) ∧
    forkedWait workers (pid, 0) =
      .ok (workers.filter (fun w => ! decide (w.1 = pid))) ∧
    (∀ (values : List α) (maxW : Nat) (events : List (Nat × Nat)) (s : Nat) (vv : α),
      (∀ e ∈ events, e.2 = 0) →
      (forked values maxW events).2 ≠ .error (.childFailed s vv)) ∧
    (∀ (values : List α) (maxW : Nat) (events : List (Nat × Nat)) (s : Nat) (vv : α),
      (forked values maxW events).2 = .error (.childFailed s vv) →
      s ≠ 0 ∧ vv ∈ values) := by
  refine ⟨fun hs => forkedWait_nonzero workers pid status v ha hs,
    forkedWait_zero_known workers pid v ha, ?_, ?_⟩
  · intro values maxW events s vv hz
    exact forkedGo_zero_no_fail maxW (values.length + events.length) values events 0 []
      s vv (Nat.le_refl _) hz
  · intro values maxW events s vv h
    exact forked_childFailed values maxW events s vv h

/-- Witness for C5: a one-record table; reaping with status 7 raises the
failure carrying (7, 42), reaping with status 0 raises nothing, and the
concrete failing run surfaces exactly that failure. -/
theorem forked_child_failure_witness :
    forkedWait [(0, 42)] ((0 : Nat), 7) = .error (.childFailed 7 (42 : Nat)) ∧
    forkedWait [(0, 42)] ((0 : Nat), 0) = .ok [] ∧
    (forked [(42 : Nat)] 1 [(0, 7)]).2 = .error (.childFailed 7 42) := by
  obtain ⟨h1, h2, h3, h4⟩ := forked_child_failure [(0, 42)] 0 7 (42 : Nat) (by decide)
  refine ⟨h1 (by decide), ?_, ?_⟩
  · have := forkedWait_zero_known [((0 : Nat), (42 : Nat))] 0 42 (by decide)
    rw [this]
    rfl
  · rw [forked, forkedGo_cons]
    rw [if_neg (by decide)]
    show (forkedGo 1 [] [(0, 7)] 1 [(0, 42)]).2 = _
    rw [forkedGo_nil]
    simp [forkedDrain, forkedWait, assoc]

/-- C6: whenever a forked run returns normally — in particular when every
child exits successfully — the final drain has reaped every remaining live
child: zero live child records remain on return. -/
theorem forked_drains (values : List α) (maxWorkers : Nat)
    (events : List (Nat × Nat)) (w : List (Nat × α))
    (h : (forked values maxWorkers events).2 = .ok w) : w = [] :=
  forked_ok_empty values maxWorkers events w h

/-- Witness for C6: a concrete run of two values under maxWorkers = 1 whose
children both exit zero; it returns normally and the theorem gives the empty
final table. -/
theorem forked_drains_witness :
    (forked [(10 : Nat), 20] 1 [(0, 0), (1, 0)]).2 = .ok [] ∧
    ([] : List (Nat × Nat)) = [] := by
  have hrun : (forked [(10 : Nat), 20] 1 [(0, 0), (1, 0)]).2 = .ok [] := by
    rw [forked, forkedGo_cons, if_neg (by decide)]
    show (forkedGo 1 [20] [(0, 0), (1, 0)] 1 [(0, 10)]).2 = _
    rw [forkedGo_cons, if_pos (by decide)]
    have hw : forkedWait [((0 : Nat), (10 : Nat))] (0, 0) = .ok [] := by
      simp [forkedWait, assoc]
    show (match forkedWait [((0 : Nat), (10 : Nat))] (0, 0) with
      | Except.error err => ([[(0, 10)]], Except.error err)
      | Except.ok w' => ([(0, 10)] :: (forkedGo 1 [20] [(1, 0)] 1 w').1,
          (forkedGo 1 [20] [(1, 0)] 1 w').2)).2 = Except.ok []
    rw [hw]
    show (forkedGo 1 [20] [(1, 0)] 1 []).2 = _
    rw [forkedGo_cons, if_neg (by decide)]
    show (forkedGo 1 [] [(1, 0)] 2 [(1, 20)]).2 = _
    rw [forkedGo_nil]
    simp [forkedDrain, forkedWait, assoc]
  exact ⟨hrun, forked_drains [(10 : Nat), 20] 1 [(0, 0), (1, 0)] [] hrun⟩

/-- C7 counterexample: a scoped tasks set with timeout 1 whose only member
completes at instant 5 — exiting the scope raises Timeout instead of waiting
for the member, so the pending operation is left unwaited. -/
theorem tasks_exit_counterexample :
    (tasks.mk (some 1) [(⟨0, 5, 0⟩ : Fut Nat)]).exit 0 = .error .timeout ∧
    (tasks.mk (some 1) [(⟨0, 5, 0⟩ : Fut Nat)]).exit 0 ≠ .ok () := by
  have h : (tasks.mk (some 1) [(⟨0, 5, 0⟩ : Fut Nat)]).exit 0 = .error .timeout := by
    rw [tasks.exit]
    have hac : asCompleted (some 1) 0 [(⟨0, 5, 0⟩ : Fut Nat)] = .error .timeout := by
      simp [asCompleted, wait, waitDone, waitPending, minCtime]
    rw [hac]
  refine ⟨h, ?_⟩
  rw [h]
  intro hc
  cases hc

/-- C7 amended: for a stream with no timeout configured, exiting the scope
waits for every handle still pending in the set — the as-completed drain
touches each member exactly once — before returning normally; with a timeout
configured, exit can raise Timeout and leave members unwaited. -/
theorem tasks_exit_drains (s : tasks α) (t : Nat) (hto : s.timeout = none) :
    ∃ gs, asCompleted s.timeout t s.elems = .ok gs ∧ List.Perm gs s.elems ∧
      s.exit t = .ok () := by
  rw [hto]
  rcases asCompleted_none_ok t s.elems with ⟨gs, hgs⟩
  refine ⟨gs, hgs, asCompleted_ok_perm none s.elems.length t s.elems
    (Nat.le_refl _) gs hgs, ?_⟩
  rw [tasks.exit, hto, hgs]

/-- Witness for C7 amended: a concrete no-timeout set drained on exit. -/
theorem tasks_exit_drains_witness :
    ∃ gs, asCompleted (tasks.mk none [(⟨0, 5, 1⟩ : Fut Nat), ⟨1, 3, 2⟩]).timeout 0
        (tasks.mk none [(⟨0, 5, 1⟩ : Fut Nat), ⟨1, 3, 2⟩]).elems = .ok gs ∧
      List.Perm gs [⟨0, 5, 1⟩, ⟨1, 3, 2⟩] ∧
      (tasks.mk none [(⟨0, 5, 1⟩ : Fut Nat), ⟨1, 3, 2⟩]).exit 0 = .ok () :=
  tasks_exit_drains (tasks.mk none [(⟨0, 5, 1⟩ : Fut Nat), ⟨1, 3, 2⟩]) 0 rfl

/-- C8: result() returns the captured standard output if and only if the exit
code is zero; on nonzero exit it raises CalledProcessError carrying the exit
code, the command arguments, and the captured stdout and stderr. -/
theorem command_result_check (c : command) :
    (c.result = .ok c.stdout ↔ c.returncode = 0) ∧
    (c.returncode ≠ 0 →
      c.result = .error ⟨c.returncode, c.args, c.stdout, c.stderr⟩) := by
  constructor
  · constructor
    · intro h
      by_contra hne
      rw [command.result, command.check, if_pos hne] at h
      cases h
    · intro h0
      rw [command.result, command.check, if_neg (fun hc => hc h0)]
      rfl
  · intro hne
    rw [command.result, command.check, if_pos hne]
    rfl

/-- Witness for C8: a zero-exit command returning its stdout, and a nonzero
one raising the structured error. -/
theorem command_result_check_witness :
    command.result ⟨["ls"], 0, "out", ""⟩ = .ok "out" ∧
    command.result ⟨["ls", "nope"], 2, "", "err"⟩ =
      .error ⟨2, ["ls", "nope"], "", "err"⟩ :=
  ⟨(command_result_check ⟨["ls"], 0, "out", ""⟩).1.mpr rfl,
   (command_result_check ⟨["ls", "nope"], 2, "", "err"⟩).2 (by decide)⟩

/-- C9: with pairwise distinct handles, items streams back exactly the (key,
value) pair of each input pair, in completion order; two pairs sharing an
identical handle leave the handle-keyed mapping ambiguous — it holds a single
entry carrying the later key, so only that one key is recoverable, and items
yields a single pair under that key. -/
theorem items_keyed_completion [DecidableEq α] [Inhabited κ] (timeout : Option Nat) :
    (∀ (pairs : List (κ × Fut α)), (pairs.map Prod.snd).Nodup →
      ∀ out, items timeout pairs = .ok out →
        ∃ ps, List.Perm ps pairs ∧
          List.Pairwise (fun a b => a.2.ctime ≤ b.2.ctime) ps ∧
          out = ps.map (fun p => (p.1, p.2.value))) ∧
    (∀ (k1 k2 : κ) (f : Fut α),
      itemsKeys [(k1, f), (k2, f)] = [(f, k2)] ∧
      assoc (itemsKeys [(k1, f), (k2, f)]) f = some k2 ∧
      items none [(k1, f), (k2, f)] = .ok [(k2, f.value)]) := by
  constructor
  · intro pairs hnd out h
    exact items_ok_perm_sorted timeout pairs hnd out h
  · intro k1 k2 f
    have hkeys : itemsKeys [(k1, f), (k2, f)] = [(f, k2)] := by
      simp [itemsKeys, dictUpdate, assoc]
    have hassoc : assoc (itemsKeys [(k1, f), (k2, f)]) f = some k2 := by
      rw [hkeys]
      simp [assoc]
    refine ⟨hkeys, hassoc, ?_⟩
    rw [items, hkeys]
    have hw : wait 0 none [f] = ([f], [], f.ctime) := by
      simp [wait, waitDone, waitPending, minCtime, Nat.max_eq_right (Nat.zero_le _)]
    have hac : asCompleted none 0 [f] = .ok [f] := by
      rw [asCompleted_cons none 0 f [] [f] [] f.ctime hw]
      rw [asCompleted_nil]
      rfl
    show (match asCompleted none 0 [f] with
      | Except.error e => Except.error e
      | Except.ok gs => Except.ok (gs.map
          (fun g => ((assoc [(f, k2)] g).getD default, g.value)))) =
      Except.ok [(k2, f.value)]
    rw [hac]
    simp [assoc]

/-- Witness for C9: two distinct handles streamed back keyed in completion
order, and a duplicated handle recovering only the later key. -/
theorem items_keyed_completion_witness :
    (∃ ps, List.Perm ps [((1 : Nat), (⟨0, 2, 10⟩ : Fut Nat)), (2, ⟨1, 1, 20⟩)] ∧
      List.Pairwise (fun a b => a.2.ctime ≤ b.2.ctime) ps ∧
      [(2, 20), (1, 10)] = ps.map (fun p => (p.1, p.2.value))) ∧
    itemsKeys [((5 : Nat), (⟨0, 0, 7⟩ : Fut Nat)), (6, ⟨0, 0, 7⟩)] = [(⟨0, 0, 7⟩, 6)] ∧
    items none [((5 : Nat), (⟨0, 0, 7⟩ : Fut Nat)), (6, ⟨0, 0, 7⟩)] = .ok [(6, 7)] := by
  obtain ⟨h1, h2⟩ := items_keyed_completion (α := Nat) (κ := Nat) none
  refine ⟨?_, (h2 5 6 ⟨0, 0, 7⟩).1, (h2 5 6 ⟨0, 0, 7⟩).2.2⟩
  refine h1 [((1 : Nat), (⟨0, 2, 10⟩ : Fut Nat)), (2, ⟨1, 1, 20⟩)] (by decide)
    [(2, 20), (1, 10)] ?_
  simp [items, itemsKeys, dictUpdate, assoc, asCompleted, wait, waitDone,
    waitPending, minCtime]

/-- C10 counterexample: pop on a non-empty set whose bounded wait yields no
task raises the Timeout failure, not KeyError — the claim's general clause
fails on the code. -/
theorem pop_timeout_counterexample :
    (tasks.mk (some 1) [(⟨0, 5, 0⟩ : Fut Nat)]).pop 0 = .error .timeoutErr ∧
    (tasks.mk (some 1) [(⟨0, 5, 0⟩ : Fut Nat)]).pop 0 ≠
      .error (.keyError "pop from an empty set") := by
  have h : (tasks.mk (some 1) [(⟨0, 5, 0⟩ : Fut Nat)]).pop 0 = .error .timeoutErr := by
    simp [tasks.pop, wait, waitDone, waitPending, minCtime]
  refine ⟨h, ?_⟩
  rw [h]
  intro hc
  injection hc with hc
  cases hc

/-- C10 amended: pop on the empty set raises KeyError ("pop from an empty
set") rather than blocking or raising Timeout, whatever timeout is
configured; pop on a non-empty set whose bounded wait yields no task instead
propagates the Timeout failure. -/
theorem pop_empty_keyerror [DecidableEq α] (tmo : Option Nat) (t T : Nat)
    (s : tasks α) (hto : s.timeout = some T) (hne : s.elems ≠ [])
    (hlate : t + T < minCtime s.elems) :
    (tasks.mk tmo ([] : List (Fut α))).pop t =
      .error (.keyError "pop from an empty set") ∧
    s.pop t = .error .timeoutErr :=
  ⟨tasks.pop_empty tmo t, tasks.pop_timeout s t T hto hne hlate⟩

/-- Witness for C10 amended: the empty set under both timeout configurations,
and a non-empty set timing out. -/
theorem pop_empty_keyerror_witness :
    (tasks.mk none ([] : List (Fut Nat))).pop 0 =
      .error (.keyError "pop from an empty set") ∧
    (tasks.mk (some 1) ([] : List (Fut Nat))).pop 0 =
      .error (.keyError "pop from an empty set") ∧
    (tasks.mk (some 1) [(⟨0, 5, 0⟩ : Fut Nat)]).pop 0 = .error .timeoutErr := by
  obtain ⟨h1, h2⟩ := pop_empty_keyerror none 0 1
    (tasks.mk (some 1) [(⟨0, 5, 0⟩ : Fut Nat)]) rfl (by decide) (by decide)
  obtain ⟨h3, h4⟩ := pop_empty_keyerror (some 1) 0 1
    (tasks.mk (some 1) [(⟨0, 5, 0⟩ : Fut Nat)]) rfl (by decide) (by decide)
  exact ⟨h1, h3, h2⟩
